import Mathlib

/-!
Verification development for the Tacticus code-watching bot (src/bot.py).

The development shallowly embeds the program: text is `List Char`, the
regex scan `CODE_PATTERN.findall` is a pure function on character lists,
the mutable run state (in-memory known-code set, the durable
known_codes.txt file, and the observable side effects) is passed
explicitly, and Python exceptions are `Except` values carrying the state
reached at the point of the raise.
-/

set_option maxHeartbeats 1000000

abbrev Str := List Char

/-- Membership test for the regex character class [A-Z0-9] of CODE_PATTERN. -/
def isCodeChar (c : Char) : Bool := ('A' ≤ c && c ≤ 'Z') || c.isDigit

/-- Membership test for the letter class [A-Z] used by the lookahead of CODE_PATTERN. -/
def isUpperAZ (c : Char) : Bool := 'A' ≤ c && c ≤ 'Z'

/-- The ASCII part of the Python regex word class: [A-Za-z0-9_].
The \b anchors of CODE_PATTERN are defined against Python's full
Unicode-aware word class (any str.isalnum() character or the
underscore); on ASCII text the two classes coincide, and this embedding
restricts itself to that domain wherever word boundaries matter. -/
def isWordChar (c : Char) : Bool := c.isAlphanum || c = '_'

/-- An ASCII character.  Statements about the extractor that depend on
word boundaries are scoped to ASCII text, where `isWordChar` agrees
exactly with Python's Unicode word class. -/
def isAscii (c : Char) : Bool := decide (c.toNat < 128)

/-- Accumulator for `runsBy`: `acc` holds the (reversed) run read so far. -/
def runsAux (p : Char → Bool) : List Char → List Char → List (List Char)
  | [], acc => if acc = [] then [] else [acc.reverse]
  | c :: cs, acc =>
    if p c then runsAux p cs (c :: acc)
    else if acc = [] then runsAux p cs []
    else acc.reverse :: runsAux p cs []

/-- The maximal runs of characters satisfying `p`, in order of appearance. -/
def runsBy (p : Char → Bool) (s : List Char) : List (List Char) := runsAux p s []

/-- `r` occurs in `s` as a maximal run of characters satisfying `p`:
it is nonempty, all its characters satisfy `p`, and its two neighbours
in `s` (when they exist) do not. -/
def IsMaxRun (p : Char → Bool) (s r : List Char) : Prop :=
  r ≠ [] ∧ (∀ c ∈ r, p c = true) ∧
    ∃ a b, s = a ++ r ++ b ∧ (∀ c, a.getLast? = some c → p c = false) ∧
      (∀ c, b.head? = some c → p c = false)

/-- The acceptance test baked into CODE_PATTERN for one word run: the whole
run lies in [A-Z0-9], its length is between 4 and 20, and the lookahead
(?=[A-Z0-9]*[A-Z]) holds, i.e. the run has at least one letter A-Z. -/
def isCandidateRun (r : List Char) : Bool :=
  r.all isCodeChar && decide (4 ≤ r.length) && decide (r.length ≤ 20) && r.any isUpperAZ

/-- CODE_PATTERN.findall on a text.

The regex is \b(?=[A-Z0-9]*[A-Z])[A-Z0-9]{4,20}\b.  A match must start and
end at a word boundary; since every matched character is a word character,
both neighbours of the match must be non-word characters (or the ends of
the text).  A character of the run that is a word character but not in
[A-Z0-9] (a lowercase letter or an underscore) therefore kills the whole
run: the quantifier cannot consume it and no boundary exists next to it.
Hence the matches are exactly the maximal runs of word characters that
pass `isCandidateRun`, each reported once, in text order, which is what
findall returns.

The word class used here is the ASCII `isWordChar`; Python's \b is
Unicode-aware, so this function is findall exactly on ASCII text, while
on text with non-ASCII word characters adjacent to a code-shaped run it
can report runs findall would treat as unbounded. -/
def findCodes (s : List Char) : List Str :=
  (runsBy isWordChar s).filter isCandidateRun

/-- The reading of extraction used by claim C5 of the spec: keep every
maximal run of the class [A-Z0-9] (bounded by non-members of that class)
whose length is between 4 and 20.  Kept separate from `findCodes`, which
is translated from the CODE_PATTERN regex, so the two can be compared. -/
def specExtract (s : List Char) : List Str :=
  (runsBy isCodeChar s).filter (fun r => decide (4 ≤ r.length) && decide (r.length ≤ 20))

/-- One step of the scanner behind re.sub('<[^<]+?>', ' ', text).
The second argument is `none` when no tag is open, and `some buf` when a
'<' has been read and `buf` holds the (reversed) characters read since:
all of them are different from '<', and a '>' terminates the tag only
when `buf` is nonempty (the regex needs at least one character between
the brackets).  An unterminated tag is emitted literally at the end. -/
def stripTagsAux : List Char → Option (List Char) → List Char
  | [], none => []
  | [], some buf => '<' :: buf.reverse
  | c :: cs, none =>
    if c = '<' then stripTagsAux cs (some [])
    else c :: stripTagsAux cs none
  | c :: cs, some buf =>
    if c = '<' then ('<' :: buf.reverse) ++ stripTagsAux cs (some [])
    else if c = '>' && !buf.isEmpty then ' ' :: stripTagsAux cs none
    else stripTagsAux cs (c :: buf)

/-- re.sub('<[^<]+?>', ' ', text): the rough HTML tag strip of bot.py. -/
def stripTags (s : List Char) : List Char := stripTagsAux s none

/-- Python str.strip() restricted to ASCII whitespace, as applied by
load_known_codes to each line of the durable file. -/
def pyStrip (s : Str) : Str :=
  ((s.dropWhile Char.isWhitespace).reverse.dropWhile Char.isWhitespace).reverse

/-- The IGNORE_LIST of bot.py (the repeated entry "REDDIT" of the Python
set literal collapses; membership is unaffected). -/
def IGNORE_LIST : List Str :=
  (["CODE", "CODES", "REDDIT", "TACTICUS", "WARHAMMER", "DISCORD", "LINK", "GAME",
    "FREE", "REWARD", "ANDROID", "IPHONE", "MOBILE", "UPDATE", "PATCH",
    "NOTES", "HAVE", "BEEN", "THIS", "THAT", "WITH", "FROM", "POST",
    "THEY", "YOUR", "WILL", "JUST", "LIKE", "GOOD", "LUCK", "GUYS",
    "THANKS", "THANK", "YOU", "GUILD", "RAID", "ARENA", "MODE", "HELP",
    "NEED", "WANT", "LOOK", "FIND", "JOIN", "TEAM", "PLAY", "BEST",
    "META", "TIER", "LIST", "VIEW", "POLL", "VOTE", "MEME", "FLUFF",
    "NEWS", "INFO", "CHAT", "RULE", "MODS", "USER", "BOTS", "TEST",
    "HTTP", "HTTPS", "COM", "WWW", "COMMENTS", "PERMALINK",
    "REFERRAL", "REFERRALS", "VIDEO", "YOUTUBE", "SHARDS", "GOLD", "BLACKSTONE",
    "UPDATED", "WORKING", "ITEMS", "REQUISITION", "ORDERS", "PLAYERS", "NEWEST", "TOP",
    "ALL", "AND", "FOR", "OLD", "NEW"]).map String.toList

/-- A Discord message as consumed by check_discord: its content and id. -/
structure DMsg where
  content : Str
  id : Str
deriving DecidableEq

/-- A reddit RSS entry as consumed by main: title, optional summary,
optional publication time (published_parsed, abstracted to an integer
timestamp) and the post link. -/
structure Entry where
  title : Str
  summary : Option Str
  published : Option Int
  link : Str
deriving DecidableEq

/-- The observable side effects of a run, in chronological order.
`accepted` is the "New Code Found" report, the three notify events are
the possible outcomes of send_telegram_message, and `persisted` is a
successful save_new_code append. -/
inductive Event where
  | accepted (code : Str)
  | notified (code link : Str)
  | notifyFailed (code link : Str)
  | notifySkipped (code : Str)
  | persisted (code : Str)
deriving DecidableEq

/-- The environment of a run: which credentials are present, the Discord
channel id, and oracles telling whether the Telegram send and the durable
append succeed for a given code (each code is accepted at most once per
run, so a per-code oracle loses no generality within a run). -/
structure Config where
  telegramCreds : Bool
  discordCreds : Bool
  discordChannelId : Str
  sendOk : Str → Bool
  saveOk : Str → Bool

/-- The mutable state of a run: the in-memory known_codes set (as a list
with membership semantics), the lines of known_codes.txt, and the events
emitted so far. -/
structure BotState where
  known : List Str
  file : List Str
  events : List Event
deriving DecidableEq

/-- load_known_codes: read every line of the durable file and strip it.
The file is modelled as its list of lines; membership in the resulting
list models membership in the Python set. -/
def load_known_codes (file : List Str) : List Str := file.map pyStrip

/-- save_new_code: append one line to known_codes.txt. -/
def save_new_code (file : List Str) (code : Str) : List Str := file ++ [code]

/-- send_telegram_message: skips when credentials are missing, otherwise
attempts the send; a raise inside is caught there, so the call never
propagates an exception. The returned event records the outcome. -/
def send_telegram_message (cfg : Config) (code link : Str) : Event :=
  if cfg.telegramCreds then
    if cfg.sendOk code then .notified code link else .notifyFailed code link
  else .notifySkipped code

/-- Processing of one candidate code, common to check_discord and main:
if the code is in IGNORE_LIST or already known it is skipped; otherwise
the acceptance is reported, send_telegram_message runs, the code is added
to the in-memory set, and save_new_code appends it. A failing append
raises, which carries the state reached so far out of the loop
(Except.error). -/
def processCode (cfg : Config) (code link : Str) (st : BotState) :
    Except BotState BotState :=
  if code ∈ IGNORE_LIST then .ok st
  else if code ∈ st.known then .ok st
  else
    let st1 : BotState :=
      { known := code :: st.known, file := st.file,
        events := st.events ++ [.accepted code, send_telegram_message cfg code link] }
    if cfg.saveOk code then
      .ok { st1 with file := save_new_code st1.file code,
                     events := st1.events ++ [.persisted code] }
    else .error st1

/-- The inner candidate loop (for code in potential_codes). -/
def processCodes (cfg : Config) (link : Str) : List Str → BotState → Except BotState BotState
  | [], st => .ok st
  | c :: cs, st =>
    match processCode cfg c link st with
    | .ok st' => processCodes cfg link cs st'
    | .error st' => .error st'

/-- The jump link built by check_discord for a message. -/
def discordLink (channelId msgId : Str) : Str :=
  ("https://discord.com/channels/@me/").toList ++ channelId ++ '/' :: msgId

/-- One Discord message: findall on the raw content, then the candidate loop. -/
def processDMsg (cfg : Config) (m : DMsg) (st : BotState) : Except BotState BotState :=
  processCodes cfg (discordLink cfg.discordChannelId m.id) (findCodes m.content) st

/-- The Discord message loop. -/
def processDMsgs (cfg : Config) : List DMsg → BotState → Except BotState BotState
  | [], st => .ok st
  | m :: ms, st =>
    match processDMsg cfg m st with
    | .ok st' => processDMsgs cfg ms st'
    | .error st' => .error st'

/-- check_discord: returns immediately without secrets; a fetch failure
(non-200 status, network or JSON error) is caught inside the function, as
is any exception raised while processing the messages, so the function
always returns the state reached. -/
def check_discord (cfg : Config) (fetch : Except Unit (List DMsg)) (st : BotState) : BotState :=
  if cfg.discordCreds then
    match fetch with
    | .error _ => st
    | .ok msgs =>
      match processDMsgs cfg msgs st with
      | .ok st' => st'
      | .error st' => st'
  else st

/-- content_text of main: the entry title, plus the summary when present
(joined by a space), with the rough HTML strip applied. -/
def entryText (e : Entry) : Str :=
  stripTags (e.title ++ (match e.summary with | some s => ' ' :: s | none => []))

/-- One RSS entry of main: an entry with a known timestamp older than the
cutoff is skipped (continue); otherwise findall runs on the normalized
text and the candidate loop follows. -/
def processEntry (cfg : Config) (cutoff : Int) (e : Entry) (st : BotState) :
    Except BotState BotState :=
  match e.published with
  | some t =>
    if t < cutoff then .ok st
    else processCodes cfg e.link (findCodes (entryText e)) st
  | none => processCodes cfg e.link (findCodes (entryText e)) st

/-- The entry loop of main for one subreddit feed. -/
def processEntries (cfg : Config) (cutoff : Int) : List Entry → BotState → Except BotState BotState
  | [], st => .ok st
  | e :: es, st =>
    match processEntry cfg cutoff e st with
    | .ok st' => processEntries cfg cutoff es st'
    | .error st' => .error st'

/-- One subreddit of main: the try block covers the fetch/parse and the
entry loop, so both a failed fetch and an exception inside the loop leave
main with the state reached and the loop moves to the next subreddit. -/
def processSub (cfg : Config) (cutoff : Int) (feed : Except Unit (List Entry))
    (st : BotState) : BotState :=
  match feed with
  | .error _ => st
  | .ok entries =>
    match processEntries cfg cutoff entries st with
    | .ok st' => st'
    | .error st' => st'

/-- The subreddit loop of main. -/
def runSubs (cfg : Config) (cutoff : Int) : List (Except Unit (List Entry)) → BotState → BotState
  | [], st => st
  | f :: fs, st => runSubs cfg cutoff fs (processSub cfg cutoff f st)

/-- main: load the known codes from the durable file, check Discord, then
scan the subreddit feeds.  `cutoff` abstracts utcnow minus three days,
`dfetch` the Discord API response, `feeds` the parsed RSS feeds. -/
def runMain (cfg : Config) (cutoff : Int) (dfetch : Except Unit (List DMsg))
    (feeds : List (Except Unit (List Entry))) (file0 : List Str) : BotState :=
  runSubs cfg cutoff feeds
    (check_discord cfg dfetch
      { known := load_known_codes file0, file := file0, events := [] })

/-- The code reported by an acceptance event, if any. -/
def acceptedOf : Event → Option Str
  | .accepted c => some c
  | _ => none

/-- The codes reported as newly found, in order of acceptance. -/
def acceptedList (evts : List Event) : List Str := evts.filterMap acceptedOf

/-- Projection out of the Except used for exceptions: both a normal
return and a caught raise leave main with the state carried. -/
def runState : Except BotState BotState → BotState
  | .ok st => st
  | .error st => st

/-- Concatenation of a list of lists. -/
def catLists {A : Type} : List (List A) → List A
  | [] => []
  | l :: ls => l ++ catLists ls

/-- The events one accepted candidate (code, link) contributes when its
durable append succeeds: the acceptance report, the notification outcome,
and the persistence record, in program order. -/
def blockEvents (cfg : Config) (pr : Str × Str) : List Event :=
  [.accepted pr.1, send_telegram_message cfg pr.1 pr.2, .persisted pr.1]

/-- The candidates check_discord extracts from a message list. -/
def candsOfDMsgs (ms : List DMsg) : List Str :=
  catLists (ms.map (fun m => findCodes m.content))

/-- The candidates main extracts from one RSS entry: none when the entry
is older than the cutoff, the findall result otherwise. -/
def candsOfEntry (cutoff : Int) (e : Entry) : List Str :=
  match e.published with
  | some t => if t < cutoff then [] else findCodes (entryText e)
  | none => findCodes (entryText e)

/-- The candidates main extracts from one subreddit feed. -/
def candsOfFeed (cutoff : Int) : Except Unit (List Entry) → List Str
  | .error _ => []
  | .ok es => catLists (es.map (candsOfEntry cutoff))

/-- The candidates the Discord arm of a run evaluates: none without
credentials or on a failed fetch. -/
def candsOfDiscord (dc : Bool) : Except Unit (List DMsg) → List Str
  | .error _ => []
  | .ok ms => if dc then candsOfDMsgs ms else []

/-- Every candidate one run evaluates, in evaluation order: the Discord
ones (when credentials are present and the fetch succeeds) followed by
the RSS ones. -/
def candsOfRun (dc : Bool) (cutoff : Int) (dfetch : Except Unit (List DMsg))
    (feeds : List (Except Unit (List Entry))) : List Str :=
  candsOfDiscord dc dfetch ++ catLists (feeds.map (candsOfFeed cutoff))

/-- Run invariant used for deduplication: no code has been reported as
newly found twice, and every reported code is in the in-memory set. -/
def RunInv (st : BotState) : Prop :=
  (acceptedList st.events).Nodup ∧ ∀ c ∈ acceptedList st.events, c ∈ st.known

/-- Relation between two states of one run segment when every durable
append succeeds: the known set and the file only grow, every newly known
code is in the file and consists of [A-Z0-9] characters, reported codes
stay recorded in the file, and the event log keeps the shape of a
sequence of per-code blocks. -/
def GoodRun (cfg : Config) (st st' : BotState) : Prop :=
  (∀ c, c ∈ st.known → c ∈ st'.known) ∧
  (∀ c, c ∈ st.file → c ∈ st'.file) ∧
  (∀ c, c ∈ st'.known → c ∈ st.known ∨ (c ∈ st'.file ∧ c.all isCodeChar = true)) ∧
  ((∀ c, Event.accepted c ∈ st.events → c ∈ st.file) →
    (∀ c, Event.accepted c ∈ st'.events → c ∈ st'.file)) ∧
  (∀ ps : List (Str × Str), st.events = catLists (ps.map (blockEvents cfg)) →
    ∃ qs : List (Str × Str), st'.events = catLists (qs.map (blockEvents cfg)))

/-- Relation between two states of one run segment (no assumption on the
oracles): the known set only grows and the deduplication invariant is
preserved. -/
def StepOK (st st' : BotState) : Prop :=
  (∀ c, c ∈ st.known → c ∈ st'.known) ∧ (RunInv st → RunInv st')

/-- Relation between two states of one run segment (no oracle
assumption) recording how the durable file can change: events are only
appended, a persistence record appears only when the append oracle
allows it, and the file gains only codes whose persistence was recorded.
-/
def SaveRel (cfg : Config) (st st' : BotState) : Prop :=
  (∀ e : Event, e ∈ st.events → e ∈ st'.events) ∧
  (∀ c, Event.persisted c ∈ st'.events → Event.persisted c ∈ st.events ∨ cfg.saveOk c = true) ∧
  (∀ c, c ∈ st'.file → c ∈ st.file ∨ Event.persisted c ∈ st'.events)

theorem runsBy_nil (p : Char → Bool) : runsBy p [] = [] := rfl

theorem runsBy_cons_neg (p : Char → Bool) (c : Char) (cs : List Char) (h : p c = false) :
    runsBy p (c :: cs) = runsBy p cs := by
  simp [runsBy, runsAux, h]

theorem runsAux_acc (p : Char → Bool) :
    ∀ (cs acc : List Char), acc ≠ [] →
      runsAux p cs acc = (acc.reverse ++ cs.takeWhile p) :: runsBy p (cs.dropWhile p) := by
  intro cs
  induction cs with
  | nil =>
    intro acc h
    simp [runsAux, h, runsBy]
  | cons c cs ih =>
    intro acc h
    by_cases hp : p c = true
    · rw [runsAux, if_pos hp, ih (c :: acc) (by simp), List.takeWhile_cons_of_pos hp,
        List.dropWhile_cons_of_pos hp]
      simp
    · replace hp : p c = false := by simpa using hp
      rw [runsAux, if_neg (by simp [hp]), if_neg h, List.takeWhile_cons_of_neg (by simp [hp]),
        List.dropWhile_cons_of_neg (by simp [hp]), runsBy_cons_neg p c cs hp]
      simp [runsBy]

theorem runsBy_cons_pos (p : Char → Bool) (c : Char) (cs : List Char) (h : p c = true) :
    runsBy p (c :: cs) = (c :: cs.takeWhile p) :: runsBy p (cs.dropWhile p) := by
  rw [runsBy, runsAux, if_pos h, runsAux_acc p cs [c] (by simp)]
  simp

theorem length_dropWhile_le (p : Char → Bool) (l : List Char) :
    (l.dropWhile p).length ≤ l.length := by
  induction l with
  | nil => simp [List.dropWhile]
  | cons c cs ih =>
    rw [List.dropWhile]
    cases p c
    · simp
    · simp
      omega

theorem head?_dropWhile_false (p : Char → Bool) (l : List Char) (c : Char)
    (h : (l.dropWhile p).head? = some c) : p c = false := by
  have := List.head?_dropWhile_not p l
  rw [h] at this
  simpa using this

theorem getLast?_cons_of_ne_nil (c : Char) (l : List Char) (h : l ≠ []) :
    (c :: l).getLast? = l.getLast? := by
  cases l with
  | nil => exact absurd rfl h
  | cons d ds => exact List.getLast?_cons_cons

theorem takeWhile_all_append (p : Char → Bool) :
    ∀ (t b : List Char), (∀ c ∈ t, p c = true) → (∀ c, b.head? = some c → p c = false) →
      (t ++ b).takeWhile p = t := by
  intro t
  induction t with
  | nil =>
    intro b _ hb
    cases b with
    | nil => rfl
    | cons x xs =>
      have hx : p x = false := hb x rfl
      simp only [List.nil_append]
      exact List.takeWhile_cons_of_neg (by simp [hx])
  | cons c cs ih =>
    intro b ht hb
    have hc : p c = true := ht c (by simp)
    simp only [List.cons_append, List.takeWhile_cons_of_pos hc]
    rw [ih b (fun x hx => ht x (by simp [hx])) hb]

theorem dropWhile_all_append (p : Char → Bool) :
    ∀ (t b : List Char), (∀ c ∈ t, p c = true) → (t ++ b).dropWhile p = b.dropWhile p := by
  intro t
  induction t with
  | nil => intro b _; rfl
  | cons c cs ih =>
    intro b ht
    have hc : p c = true := ht c (by simp)
    simp only [List.cons_append, List.dropWhile_cons_of_pos hc]
    exact ih b (fun x hx => ht x (by simp [hx]))

theorem dropWhile_append_of_mem_false (p : Char → Bool) :
    ∀ (l m : List Char), (∃ x ∈ l, p x = false) →
      (l ++ m).dropWhile p = l.dropWhile p ++ m := by
  intro l
  induction l with
  | nil => intro m h; obtain ⟨x, hx, _⟩ := h; exact absurd hx (by simp)
  | cons c cs ih =>
    intro m h
    by_cases hc : p c = true
    · simp only [List.cons_append, List.dropWhile_cons_of_pos hc]
      obtain ⟨x, hx, hpx⟩ := h
      rcases List.mem_cons.mp hx with rfl | hx'
      · rw [hpx] at hc; exact absurd hc (by simp)
      · exact ih m ⟨x, hx', hpx⟩
    · replace hc : p c = false := by simpa using hc
      rw [List.cons_append, List.dropWhile_cons_of_neg (by simp [hc]),
        List.dropWhile_cons_of_neg (by simp [hc])]
      rfl

theorem dropWhile_ne_nil_of_mem_false (p : Char → Bool) :
    ∀ (l : List Char), (∃ x ∈ l, p x = false) → l.dropWhile p ≠ [] := by
  intro l
  induction l with
  | nil => intro h; obtain ⟨x, hx, _⟩ := h; exact absurd hx (by simp)
  | cons c cs ih =>
    intro h
    by_cases hc : p c = true
    · rw [List.dropWhile_cons_of_pos hc]
      obtain ⟨x, hx, hpx⟩ := h
      rcases List.mem_cons.mp hx with rfl | hx'
      · rw [hpx] at hc; exact absurd hc (by simp)
      · exact ih ⟨x, hx', hpx⟩
    · replace hc : p c = false := by simpa using hc
      rw [List.dropWhile_cons_of_neg (by simp [hc])]
      simp

theorem mem_runsBy_of_isMaxRun_aux (p : Char → Bool) (n : Nat) :
    ∀ (s r : List Char), s.length ≤ n → IsMaxRun p s r → r ∈ runsBy p s := by
  induction n with
  | zero =>
    intro s r hlen hmax
    obtain ⟨hne, _, a, b, hs, _, _⟩ := hmax
    exfalso
    have hs0 : s = [] := by
      cases s with
      | nil => rfl
      | cons c cs => simp at hlen
    rw [hs0, List.append_assoc] at hs
    have h2 := List.append_eq_nil.mp hs.symm
    have h3 := List.append_eq_nil.mp h2.2
    exact hne h3.1
  | succ n ih =>
    intro s r hlen hmax
    obtain ⟨hne, hall, a, b, hs, hlast, hhead⟩ := hmax
    cases s with
    | nil =>
      exfalso
      rw [List.append_assoc] at hs
      have h2 := List.append_eq_nil.mp hs.symm
      have h3 := List.append_eq_nil.mp h2.2
      exact hne h3.1
    | cons c cs =>
      cases a with
      | nil =>
        cases r with
        | nil => exact absurd rfl hne
        | cons r0 rs =>
          simp only [List.nil_append, List.cons_append] at hs
          injection hs with h1 h2
          subst h1
          have hc : p c = true := hall c (by simp)
          rw [runsBy_cons_pos p c cs hc]
          have htw : cs.takeWhile p = rs := by
            rw [h2]
            exact takeWhile_all_append p rs b (fun x hx => hall x (by simp [hx])) hhead
          rw [htw]
          exact List.mem_cons_self _ _
      | cons a0 as =>
        simp only [List.cons_append, List.append_assoc] at hs
        injection hs with h1 h2
        subst h1
        have hcs : cs = as ++ r ++ b := by rw [h2, List.append_assoc]
        by_cases hp : p c = true
        · have has : as ≠ [] := by
            intro h0
            subst h0
            have hc0 : p c = false := hlast c (by simp)
            simp [hc0] at hp
          have hlast_as : ∀ x, as.getLast? = some x → p x = false := fun x hx =>
            hlast x (by rw [getLast?_cons_of_ne_nil c as has]; exact hx)
          obtain ⟨y, hy⟩ : ∃ y, as.getLast? = some y := by
            cases hgl : as.getLast? with
            | none => exact absurd (List.getLast?_eq_none_iff.mp hgl) has
            | some y => exact ⟨y, rfl⟩
          have hex : ∃ x ∈ as, p x = false := ⟨y, List.mem_of_mem_getLast? hy, hlast_as y hy⟩
          rw [runsBy_cons_pos p c cs hp]
          apply List.mem_cons_of_mem
          have hdw : cs.dropWhile p = as.dropWhile p ++ (r ++ b) := by
            rw [hcs, List.append_assoc]
            exact dropWhile_append_of_mem_false p as (r ++ b) hex
          have hdw_ne : as.dropWhile p ≠ [] := dropWhile_ne_nil_of_mem_false p as hex
          have hdw_last : ∀ x, (as.dropWhile p).getLast? = some x → p x = false := by
            intro x hx
            apply hlast_as x
            have hsplit : as.getLast? = (as.dropWhile p).getLast? := by
              conv_lhs => rw [← List.takeWhile_append_dropWhile p as]
              exact List.getLast?_append_of_ne_nil _ hdw_ne
            rw [hsplit]
            exact hx
          have hlen' : (cs.dropWhile p).length ≤ n :=
            le_trans (length_dropWhile_le p cs) (by simpa using hlen)
          exact ih (cs.dropWhile p) r hlen'
            ⟨hne, hall, as.dropWhile p, b, by rw [hdw, List.append_assoc], hdw_last, hhead⟩
        · replace hp : p c = false := by simpa using hp
          rw [runsBy_cons_neg p c cs hp]
          refine ih cs r (by simpa using hlen) ⟨hne, hall, as, b, hcs, ?_, hhead⟩
          intro x hx
          apply hlast x
          cases has : as with
          | nil => subst has; simp at hx
          | cons a1 as' =>
            subst has
            rw [getLast?_cons_of_ne_nil c _ (by simp)]
            exact hx

theorem mem_runsBy_of_isMaxRun (p : Char → Bool) (s r : List Char)
    (hmax : IsMaxRun p s r) : r ∈ runsBy p s :=
  mem_runsBy_of_isMaxRun_aux p s.length s r (le_refl _) hmax

theorem isMaxRun_of_mem_runsBy_aux (p : Char → Bool) (n : Nat) :
    ∀ (s r : List Char), s.length ≤ n → r ∈ runsBy p s → IsMaxRun p s r := by
  induction n with
  | zero =>
    intro s r hlen hr
    have hs0 : s = [] := by
      cases s with
      | nil => rfl
      | cons c cs => simp at hlen
    rw [hs0, runsBy_nil] at hr
    exact absurd hr (by simp)
  | succ n ih =>
    intro s r hlen hr
    cases s with
    | nil => rw [runsBy_nil] at hr; exact absurd hr (by simp)
    | cons c cs =>
      by_cases hp : p c = true
      · rw [runsBy_cons_pos p c cs hp] at hr
        rcases List.mem_cons.mp hr with rfl | hr'
        · refine ⟨by simp, ?_, [], cs.dropWhile p, ?_, by simp, ?_⟩
          · intro x hx
            rcases List.mem_cons.mp hx with rfl | hx'
            · exact hp
            · exact List.mem_takeWhile_imp hx'
          · simp [List.takeWhile_append_dropWhile]
          · intro x hx
            exact head?_dropWhile_false p cs x hx
        · have hlen' : (cs.dropWhile p).length ≤ n :=
            le_trans (length_dropWhile_le p cs) (by simpa using hlen)
          obtain ⟨hne, hall, a, b, hd, hlast, hhead⟩ := ih (cs.dropWhile p) r hlen' hr'
          have ha_ne : a ≠ [] := by
            intro h0
            subst h0
            cases r with
            | nil => exact hne rfl
            | cons r0 rs =>
              have hh : (cs.dropWhile p).head? = some r0 := by rw [hd]; rfl
              have hfalse := head?_dropWhile_false p cs r0 hh
              have htrue := hall r0 (by simp)
              rw [htrue] at hfalse
              exact absurd hfalse (by simp)
          refine ⟨hne, hall, c :: (cs.takeWhile p ++ a), b, ?_, ?_, hhead⟩
          · conv_lhs => rw [← List.takeWhile_append_dropWhile p cs]
            rw [hd]
            simp [List.append_assoc]
          · intro x hx
            apply hlast x
            rw [getLast?_cons_of_ne_nil c _ (by simp [ha_ne]),
              List.getLast?_append_of_ne_nil _ ha_ne] at hx
            exact hx
      · replace hp : p c = false := by simpa using hp
        rw [runsBy_cons_neg p c cs hp] at hr
        obtain ⟨hne, hall, a, b, hd, hlast, hhead⟩ := ih cs r (by simpa using hlen) hr
        refine ⟨hne, hall, c :: a, b, by rw [hd]; rfl, ?_, hhead⟩
        intro x hx
        cases ha : a with
        | nil =>
          subst ha
          simp at hx
          subst hx
          exact hp
        | cons a0 as =>
          subst ha
          rw [getLast?_cons_of_ne_nil c _ (by simp)] at hx
          exact hlast x hx

theorem isMaxRun_of_mem_runsBy (p : Char → Bool) (s r : List Char)
    (hr : r ∈ runsBy p s) : IsMaxRun p s r :=
  isMaxRun_of_mem_runsBy_aux p s.length s r (le_refl _) hr

theorem mem_runsBy_iff (p : Char → Bool) (s r : List Char) :
    r ∈ runsBy p s ↔ IsMaxRun p s r :=
  ⟨isMaxRun_of_mem_runsBy p s r, mem_runsBy_of_isMaxRun p s r⟩

theorem mem_catLists {A : Type} (x : A) :
    ∀ (ls : List (List A)), x ∈ catLists ls ↔ ∃ l ∈ ls, x ∈ l := by
  intro ls
  induction ls with
  | nil => simp [catLists]
  | cons l ls ih => simp [catLists, List.mem_append, ih]

theorem catLists_append {A : Type} :
    ∀ (xs ys : List (List A)), catLists (xs ++ ys) = catLists xs ++ catLists ys := by
  intro xs ys
  induction xs with
  | nil => rfl
  | cons l ls ih => simp [catLists, ih]

theorem acceptedList_append (e1 e2 : List Event) :
    acceptedList (e1 ++ e2) = acceptedList e1 ++ acceptedList e2 := by
  simp [acceptedList]

theorem acceptedOf_send (cfg : Config) (code link : Str) :
    acceptedOf (send_telegram_message cfg code link) = none := by
  simp only [send_telegram_message]
  split
  · split
    · rfl
    · rfl
  · rfl

theorem acceptedOf_eq_some (e : Event) (c : Str) :
    acceptedOf e = some c ↔ e = Event.accepted c := by
  cases e
  all_goals simp [acceptedOf]

theorem mem_acceptedList (c : Str) (evts : List Event) :
    c ∈ acceptedList evts ↔ Event.accepted c ∈ evts := by
  simp [acceptedList, List.mem_filterMap, acceptedOf_eq_some]

theorem acceptedList_pair (cfg : Config) (code link : Str) :
    acceptedList [Event.accepted code, send_telegram_message cfg code link] = [code] := by
  simp only [acceptedList, List.filterMap_cons, acceptedOf_send]
  simp [acceptedOf]

theorem acceptedList_accept2 (cfg : Config) (code link : Str) (evts : List Event) :
    acceptedList (evts ++ [Event.accepted code, send_telegram_message cfg code link])
      = acceptedList evts ++ [code] := by
  rw [acceptedList_append, acceptedList_pair]

theorem acceptedList_accept3 (cfg : Config) (code link : Str) (evts : List Event) :
    acceptedList ((evts ++ [Event.accepted code, send_telegram_message cfg code link])
        ++ [Event.persisted code])
      = acceptedList evts ++ [code] := by
  rw [acceptedList_append, acceptedList_accept2]
  simp [acceptedList, acceptedOf]

theorem mem_findCodes_iff (s : List Char) (r : Str) :
    r ∈ findCodes s ↔ IsMaxRun isWordChar s r ∧ r.all isCodeChar = true ∧
      4 ≤ r.length ∧ r.length ≤ 20 ∧ r.any isUpperAZ = true := by
  rw [findCodes, List.mem_filter, mem_runsBy_iff]
  simp [isCandidateRun, Bool.and_eq_true, and_assoc]

theorem findCodes_all_code (s : List Char) (r : Str) (h : r ∈ findCodes s) :
    r.all isCodeChar = true :=
  ((mem_findCodes_iff s r).mp h).2.1

theorem findCodes_any_upper (s : List Char) (r : Str) (h : r ∈ findCodes s) :
    r.any isUpperAZ = true :=
  ((mem_findCodes_iff s r).mp h).2.2.2.2

theorem StepOK_refl (st : BotState) : StepOK st st :=
  ⟨fun _ h => h, fun h => h⟩

theorem StepOK_trans {s1 s2 s3 : BotState} (h1 : StepOK s1 s2) (h2 : StepOK s2 s3) :
    StepOK s1 s3 :=
  ⟨fun c hc => h2.1 c (h1.1 c hc), fun h => h2.2 (h1.2 h)⟩

theorem processCode_stepOK (cfg : Config) (code link : Str) (st : BotState) :
    StepOK st (runState (processCode cfg code link st)) := by
  unfold processCode
  by_cases hig : code ∈ IGNORE_LIST
  · rw [if_pos hig]
    exact StepOK_refl st
  · rw [if_neg hig]
    by_cases hkn : code ∈ st.known
    · rw [if_pos hkn]
      exact StepOK_refl st
    · rw [if_neg hkn]
      by_cases hsv : cfg.saveOk code = true
      · rw [if_pos hsv]
        refine ⟨fun c hc => List.mem_cons_of_mem _ hc, ?_⟩
        rintro ⟨hnd, hsub⟩
        constructor
        · simp only [runState, acceptedList_accept3]
          rw [List.nodup_append]
          refine ⟨hnd, by simp, ?_⟩
          intro a ha hb
          simp at hb
          subst hb
          exact hkn (hsub a ha)
        · intro c hc
          simp only [runState, acceptedList_accept3] at hc
          rcases List.mem_append.mp hc with hc' | hc'
          · exact List.mem_cons_of_mem _ (hsub c hc')
          · simp at hc'
            subst hc'
            exact List.mem_cons_self _ _
      · rw [if_neg hsv]
        refine ⟨fun c hc => List.mem_cons_of_mem _ hc, ?_⟩
        rintro ⟨hnd, hsub⟩
        constructor
        · simp only [runState, acceptedList_accept2]
          rw [List.nodup_append]
          refine ⟨hnd, by simp, ?_⟩
          intro a ha hb
          simp at hb
          subst hb
          exact hkn (hsub a ha)
        · intro c hc
          simp only [runState, acceptedList_accept2] at hc
          rcases List.mem_append.mp hc with hc' | hc'
          · exact List.mem_cons_of_mem _ (hsub c hc')
          · simp at hc'
            subst hc'
            exact List.mem_cons_self _ _

theorem processCodes_stepOK (cfg : Config) (link : Str) :
    ∀ (codes : List Str) (st : BotState), StepOK st (runState (processCodes cfg link codes st)) := by
  intro codes
  induction codes with
  | nil => intro st; exact StepOK_refl st
  | cons c cs ih =>
    intro st
    cases h : processCode cfg c link st with
    | ok st' =>
      have h0 := processCode_stepOK cfg c link st
      rw [h] at h0
      simp only [processCodes, h]
      exact StepOK_trans h0 (ih st')
    | error st' =>
      have h0 := processCode_stepOK cfg c link st
      rw [h] at h0
      simp only [processCodes, h]
      exact h0

theorem processDMsg_stepOK (cfg : Config) (m : DMsg) (st : BotState) :
    StepOK st (runState (processDMsg cfg m st)) :=
  processCodes_stepOK cfg _ _ st

theorem processDMsgs_stepOK (cfg : Config) :
    ∀ (ms : List DMsg) (st : BotState), StepOK st (runState (processDMsgs cfg ms st)) := by
  intro ms
  induction ms with
  | nil => intro st; exact StepOK_refl st
  | cons m ms ih =>
    intro st
    cases h : processDMsg cfg m st with
    | ok st' =>
      have h0 := processDMsg_stepOK cfg m st
      rw [h] at h0
      simp only [processDMsgs, h]
      exact StepOK_trans h0 (ih st')
    | error st' =>
      have h0 := processDMsg_stepOK cfg m st
      rw [h] at h0
      simp only [processDMsgs, h]
      exact h0

theorem check_discord_stepOK (cfg : Config) (fetch : Except Unit (List DMsg)) (st : BotState) :
    StepOK st (check_discord cfg fetch st) := by
  unfold check_discord
  by_cases hdc : cfg.discordCreds
  · rw [if_pos hdc]
    cases fetch with
    | error e => exact StepOK_refl st
    | ok msgs =>
      show StepOK st (match processDMsgs cfg msgs st with
        | .ok st2 => st2
        | .error st2 => st2)
      cases h : processDMsgs cfg msgs st with
      | ok st' =>
        have h0 := processDMsgs_stepOK cfg msgs st
        rw [h] at h0
        exact h0
      | error st' =>
        have h0 := processDMsgs_stepOK cfg msgs st
        rw [h] at h0
        exact h0
  · rw [if_neg hdc]
    exact StepOK_refl st

theorem processEntry_stepOK (cfg : Config) (cutoff : Int) (e : Entry) (st : BotState) :
    StepOK st (runState (processEntry cfg cutoff e st)) := by
  unfold processEntry
  cases e.published with
  | none => exact processCodes_stepOK cfg _ _ st
  | some t =>
    show StepOK st (runState (if t < cutoff then Except.ok st
      else processCodes cfg e.link (findCodes (entryText e)) st))
    by_cases ht : t < cutoff
    · rw [if_pos ht]
      exact StepOK_refl st
    · rw [if_neg ht]
      exact processCodes_stepOK cfg _ _ st

theorem processEntries_stepOK (cfg : Config) (cutoff : Int) :
    ∀ (es : List Entry) (st : BotState), StepOK st (runState (processEntries cfg cutoff es st)) := by
  intro es
  induction es with
  | nil => intro st; exact StepOK_refl st
  | cons e es ih =>
    intro st
    cases h : processEntry cfg cutoff e st with
    | ok st' =>
      have h0 := processEntry_stepOK cfg cutoff e st
      rw [h] at h0
      simp only [processEntries, h]
      exact StepOK_trans h0 (ih st')
    | error st' =>
      have h0 := processEntry_stepOK cfg cutoff e st
      rw [h] at h0
      simp only [processEntries, h]
      exact h0

theorem processSub_stepOK (cfg : Config) (cutoff : Int) (feed : Except Unit (List Entry))
    (st : BotState) : StepOK st (processSub cfg cutoff feed st) := by
  unfold processSub
  cases feed with
  | error e => exact StepOK_refl st
  | ok entries =>
    show StepOK st (match processEntries cfg cutoff entries st with
      | .ok st2 => st2
      | .error st2 => st2)
    cases h : processEntries cfg cutoff entries st with
    | ok st' =>
      have h0 := processEntries_stepOK cfg cutoff entries st
      rw [h] at h0
      exact h0
    | error st' =>
      have h0 := processEntries_stepOK cfg cutoff entries st
      rw [h] at h0
      exact h0

theorem runSubs_stepOK (cfg : Config) (cutoff : Int) :
    ∀ (feeds : List (Except Unit (List Entry))) (st : BotState),
      StepOK st (runSubs cfg cutoff feeds st) := by
  intro feeds
  induction feeds with
  | nil => intro st; exact StepOK_refl st
  | cons f fs ih =>
    intro st
    exact StepOK_trans (processSub_stepOK cfg cutoff f st) (ih _)

theorem runMain_runInv (cfg : Config) (cutoff : Int) (dfetch : Except Unit (List DMsg))
    (feeds : List (Except Unit (List Entry))) (file0 : List Str) :
    RunInv (runMain cfg cutoff dfetch feeds file0) := by
  have h0 : RunInv { known := load_known_codes file0, file := file0, events := ([] : List Event) } := by
    constructor
    · simp [acceptedList]
    · intro c hc
      simp [acceptedList] at hc
  have h1 := check_discord_stepOK cfg dfetch ⟨load_known_codes file0, file0, []⟩
  have h2 := runSubs_stepOK cfg cutoff feeds
    (check_discord cfg dfetch ⟨load_known_codes file0, file0, []⟩)
  exact (StepOK_trans h1 h2).2 h0

theorem send_telegram_message_ne_accepted (cfg : Config) (code link c : Str) :
    send_telegram_message cfg code link ≠ Event.accepted c := by
  unfold send_telegram_message
  split
  · split
    · simp
    · simp
  · simp

theorem GoodRun_refl (cfg : Config) (st : BotState) : GoodRun cfg st st :=
  ⟨fun _ h => h, fun _ h => h, fun _ hc => Or.inl hc, fun h => h, fun ps hps => ⟨ps, hps⟩⟩

theorem GoodRun_trans (cfg : Config) {s1 s2 s3 : BotState}
    (h1 : GoodRun cfg s1 s2) (h2 : GoodRun cfg s2 s3) : GoodRun cfg s1 s3 := by
  obtain ⟨k1, f1, n1, a1, b1⟩ := h1
  obtain ⟨k2, f2, n2, a2, b2⟩ := h2
  refine ⟨fun c hc => k2 c (k1 c hc), fun c hc => f2 c (f1 c hc), ?_,
    fun h => a2 (a1 h), fun ps hps => (b1 ps hps).elim (fun qs hqs => b2 qs hqs)⟩
  intro c hc
  rcases n2 c hc with hc2 | hrest
  · rcases n1 c hc2 with h | ⟨hf, hcode⟩
    · exact Or.inl h
    · exact Or.inr ⟨f2 c hf, hcode⟩
  · exact Or.inr hrest

theorem processCode_good (cfg : Config) (hsave : ∀ c, cfg.saveOk c = true) (code link : Str)
    (st : BotState) (hcode : code.all isCodeChar = true) :
    ∃ st', processCode cfg code link st = .ok st' ∧ GoodRun cfg st st' ∧
      (code ∈ IGNORE_LIST ∨ code ∈ st'.known) := by
  unfold processCode
  by_cases hig : code ∈ IGNORE_LIST
  · rw [if_pos hig]
    exact ⟨st, rfl, GoodRun_refl cfg st, Or.inl hig⟩
  · rw [if_neg hig]
    by_cases hkn : code ∈ st.known
    · rw [if_pos hkn]
      exact ⟨st, rfl, GoodRun_refl cfg st, Or.inr hkn⟩
    · rw [if_neg hkn, if_pos (hsave code)]
      refine ⟨_, rfl, ?_, Or.inr (List.mem_cons_self _ _)⟩
      refine ⟨fun c hc => List.mem_cons_of_mem _ hc,
        fun c hc => List.mem_append.mpr (Or.inl hc), ?_, ?_, ?_⟩
      · intro c hc
        rcases List.mem_cons.mp hc with rfl | hc'
        · exact Or.inr ⟨by simp [save_new_code], hcode⟩
        · exact Or.inl hc'
      · intro h c hc
        simp only [save_new_code]
        rcases List.mem_append.mp hc with hc1 | hc1
        · rcases List.mem_append.mp hc1 with hc2 | hc2
          · exact List.mem_append.mpr (Or.inl (h c hc2))
          · rcases List.mem_cons.mp hc2 with he | he
            · injection he with hcc
              subst hcc
              exact List.mem_append.mpr (Or.inr (by simp))
            · simp at he
              exact absurd he.symm (send_telegram_message_ne_accepted cfg code link c)
        · simp at hc1
      · intro ps hps
        refine ⟨ps ++ [(code, link)], ?_⟩
        rw [hps, List.map_append, catLists_append]
        simp [catLists, blockEvents]

theorem processCodes_good (cfg : Config) (hsave : ∀ c, cfg.saveOk c = true) (link : Str) :
    ∀ (codes : List Str) (st : BotState), (∀ c ∈ codes, c.all isCodeChar = true) →
      ∃ st', processCodes cfg link codes st = .ok st' ∧ GoodRun cfg st st' ∧
        ∀ c ∈ codes, c ∈ IGNORE_LIST ∨ c ∈ st'.known := by
  intro codes
  induction codes with
  | nil =>
    intro st _
    exact ⟨st, rfl, GoodRun_refl cfg st, by simp⟩
  | cons c cs ih =>
    intro st hcodes
    obtain ⟨st1, he, hg, hcov⟩ := processCode_good cfg hsave c link st (hcodes c (by simp))
    obtain ⟨st2, he2, hg2, hcov2⟩ := ih st1 (fun x hx => hcodes x (by simp [hx]))
    refine ⟨st2, by simp only [processCodes, he, he2], GoodRun_trans cfg hg hg2, ?_⟩
    intro x hx
    rcases List.mem_cons.mp hx with rfl | hx'
    · rcases hcov with h | h
      · exact Or.inl h
      · exact Or.inr (hg2.1 x h)
    · exact hcov2 x hx'

theorem processDMsg_good (cfg : Config) (hsave : ∀ c, cfg.saveOk c = true) (m : DMsg)
    (st : BotState) :
    ∃ st', processDMsg cfg m st = .ok st' ∧ GoodRun cfg st st' ∧
      ∀ c ∈ findCodes m.content, c ∈ IGNORE_LIST ∨ c ∈ st'.known :=
  processCodes_good cfg hsave _ (findCodes m.content) st
    (fun c hc => findCodes_all_code _ c hc)

theorem processDMsgs_good (cfg : Config) (hsave : ∀ c, cfg.saveOk c = true) :
    ∀ (ms : List DMsg) (st : BotState),
      ∃ st', processDMsgs cfg ms st = .ok st' ∧ GoodRun cfg st st' ∧
        ∀ c ∈ candsOfDMsgs ms, c ∈ IGNORE_LIST ∨ c ∈ st'.known := by
  intro ms
  induction ms with
  | nil =>
    intro st
    exact ⟨st, rfl, GoodRun_refl cfg st, by simp [candsOfDMsgs, catLists]⟩
  | cons m ms ih =>
    intro st
    obtain ⟨st1, he, hg, hcov⟩ := processDMsg_good cfg hsave m st
    obtain ⟨st2, he2, hg2, hcov2⟩ := ih st1
    refine ⟨st2, by simp only [processDMsgs, he, he2], GoodRun_trans cfg hg hg2, ?_⟩
    intro x hx
    have hx' : x ∈ findCodes m.content ∨ x ∈ candsOfDMsgs ms := by
      simpa [candsOfDMsgs, catLists] using hx
    rcases hx' with hx' | hx'
    · rcases hcov x hx' with h | h
      · exact Or.inl h
      · exact Or.inr (hg2.1 x h)
    · exact hcov2 x hx'

theorem check_discord_good (cfg : Config) (hsave : ∀ c, cfg.saveOk c = true)
    (dfetch : Except Unit (List DMsg)) (st : BotState) :
    GoodRun cfg st (check_discord cfg dfetch st) ∧
      ∀ c ∈ candsOfDiscord cfg.discordCreds dfetch,
        c ∈ IGNORE_LIST ∨ c ∈ (check_discord cfg dfetch st).known := by
  unfold check_discord candsOfDiscord
  by_cases hdc : cfg.discordCreds
  · rw [if_pos hdc]
    cases dfetch with
    | error e => exact ⟨GoodRun_refl cfg st, by simp⟩
    | ok msgs =>
      show GoodRun cfg st (match processDMsgs cfg msgs st with
          | .ok st2 => st2
          | .error st2 => st2) ∧
        ∀ c ∈ (if cfg.discordCreds = true then candsOfDMsgs msgs else []),
          c ∈ IGNORE_LIST ∨
          c ∈ (match processDMsgs cfg msgs st with
            | .ok st2 => st2
            | .error st2 => st2).known
      rw [if_pos hdc]
      obtain ⟨st', he, hg, hcov⟩ := processDMsgs_good cfg hsave msgs st
      rw [he]
      exact ⟨hg, hcov⟩
  · rw [if_neg hdc]
    cases dfetch with
    | error e => exact ⟨GoodRun_refl cfg st, by simp⟩
    | ok msgs =>
      show GoodRun cfg st st ∧
        ∀ c ∈ (if cfg.discordCreds = true then candsOfDMsgs msgs else []),
          c ∈ IGNORE_LIST ∨ c ∈ st.known
      rw [if_neg hdc]
      exact ⟨GoodRun_refl cfg st, by simp⟩

theorem processEntry_good (cfg : Config) (hsave : ∀ c, cfg.saveOk c = true) (cutoff : Int)
    (e : Entry) (st : BotState) :
    ∃ st', processEntry cfg cutoff e st = .ok st' ∧ GoodRun cfg st st' ∧
      ∀ c ∈ candsOfEntry cutoff e, c ∈ IGNORE_LIST ∨ c ∈ st'.known := by
  unfold processEntry candsOfEntry
  cases e.published with
  | none =>
    exact processCodes_good cfg hsave _ _ st (fun c hc => findCodes_all_code _ c hc)
  | some t =>
    show ∃ st', (if t < cutoff then Except.ok st
        else processCodes cfg e.link (findCodes (entryText e)) st) = .ok st' ∧
      GoodRun cfg st st' ∧
      ∀ c ∈ (if t < cutoff then [] else findCodes (entryText e)),
        c ∈ IGNORE_LIST ∨ c ∈ st'.known
    by_cases ht : t < cutoff
    · rw [if_pos ht, if_pos ht]
      exact ⟨st, rfl, GoodRun_refl cfg st, by simp⟩
    · rw [if_neg ht, if_neg ht]
      exact processCodes_good cfg hsave _ _ st (fun c hc => findCodes_all_code _ c hc)

theorem processEntries_good (cfg : Config) (hsave : ∀ c, cfg.saveOk c = true) (cutoff : Int) :
    ∀ (es : List Entry) (st : BotState),
      ∃ st', processEntries cfg cutoff es st = .ok st' ∧ GoodRun cfg st st' ∧
        ∀ c ∈ catLists (es.map (candsOfEntry cutoff)), c ∈ IGNORE_LIST ∨ c ∈ st'.known := by
  intro es
  induction es with
  | nil =>
    intro st
    exact ⟨st, rfl, GoodRun_refl cfg st, by simp [catLists]⟩
  | cons e es ih =>
    intro st
    obtain ⟨st1, he, hg, hcov⟩ := processEntry_good cfg hsave cutoff e st
    obtain ⟨st2, he2, hg2, hcov2⟩ := ih st1
    refine ⟨st2, by simp only [processEntries, he, he2], GoodRun_trans cfg hg hg2, ?_⟩
    intro x hx
    have hx' : x ∈ candsOfEntry cutoff e ∨ x ∈ catLists (es.map (candsOfEntry cutoff)) := by
      simpa [catLists] using hx
    rcases hx' with hx' | hx'
    · rcases hcov x hx' with h | h
      · exact Or.inl h
      · exact Or.inr (hg2.1 x h)
    · exact hcov2 x hx'

theorem processSub_good (cfg : Config) (hsave : ∀ c, cfg.saveOk c = true) (cutoff : Int)
    (feed : Except Unit (List Entry)) (st : BotState) :
    GoodRun cfg st (processSub cfg cutoff feed st) ∧
      ∀ c ∈ candsOfFeed cutoff feed, c ∈ IGNORE_LIST ∨ c ∈ (processSub cfg cutoff feed st).known := by
  unfold processSub candsOfFeed
  cases feed with
  | error e => exact ⟨GoodRun_refl cfg st, by simp⟩
  | ok entries =>
    show GoodRun cfg st (match processEntries cfg cutoff entries st with
        | .ok st2 => st2
        | .error st2 => st2) ∧
      ∀ c ∈ catLists (entries.map (candsOfEntry cutoff)), c ∈ IGNORE_LIST ∨
        c ∈ (match processEntries cfg cutoff entries st with
          | .ok st2 => st2
          | .error st2 => st2).known
    obtain ⟨st', he, hg, hcov⟩ := processEntries_good cfg hsave cutoff entries st
    rw [he]
    exact ⟨hg, hcov⟩

theorem runSubs_good (cfg : Config) (hsave : ∀ c, cfg.saveOk c = true) (cutoff : Int) :
    ∀ (feeds : List (Except Unit (List Entry))) (st : BotState),
      GoodRun cfg st (runSubs cfg cutoff feeds st) ∧
        ∀ c ∈ catLists (feeds.map (candsOfFeed cutoff)),
          c ∈ IGNORE_LIST ∨ c ∈ (runSubs cfg cutoff feeds st).known := by
  intro feeds
  induction feeds with
  | nil =>
    intro st
    exact ⟨GoodRun_refl cfg st, by simp [catLists]⟩
  | cons f fs ih =>
    intro st
    obtain ⟨hg, hcov⟩ := processSub_good cfg hsave cutoff f st
    obtain ⟨hg2, hcov2⟩ := ih (processSub cfg cutoff f st)
    refine ⟨GoodRun_trans cfg hg hg2, ?_⟩
    intro x hx
    have hx' : x ∈ candsOfFeed cutoff f ∨ x ∈ catLists (fs.map (candsOfFeed cutoff)) := by
      simpa [catLists] using hx
    rcases hx' with hx' | hx'
    · rcases hcov x hx' with h | h
      · exact Or.inl h
      · exact Or.inr (hg2.1 x h)
    · exact hcov2 x hx'

theorem runMain_good (cfg : Config) (hsave : ∀ c, cfg.saveOk c = true) (cutoff : Int)
    (dfetch : Except Unit (List DMsg)) (feeds : List (Except Unit (List Entry)))
    (file0 : List Str) :
    GoodRun cfg { known := load_known_codes file0, file := file0, events := ([] : List Event) }
        (runMain cfg cutoff dfetch feeds file0) ∧
      ∀ c ∈ candsOfRun cfg.discordCreds cutoff dfetch feeds,
        c ∈ IGNORE_LIST ∨ c ∈ (runMain cfg cutoff dfetch feeds file0).known := by
  obtain ⟨hg1, hcov1⟩ := check_discord_good cfg hsave dfetch
    { known := load_known_codes file0, file := file0, events := ([] : List Event) }
  obtain ⟨hg2, hcov2⟩ := runSubs_good cfg hsave cutoff feeds
    (check_discord cfg dfetch
      { known := load_known_codes file0, file := file0, events := ([] : List Event) })
  refine ⟨GoodRun_trans cfg hg1 hg2, ?_⟩
  intro x hx
  rcases List.mem_append.mp hx with hx' | hx'
  · rcases hcov1 x hx' with h | h
    · exact Or.inl h
    · exact Or.inr (hg2.1 x h)
  · exact hcov2 x hx'

theorem processCode_noop (cfg : Config) (code link : Str) (st : BotState)
    (h : code ∈ IGNORE_LIST ∨ code ∈ st.known) :
    processCode cfg code link st = .ok st := by
  unfold processCode
  rcases h with h | h
  · rw [if_pos h]
  · by_cases hig : code ∈ IGNORE_LIST
    · rw [if_pos hig]
    · rw [if_neg hig, if_pos h]

theorem processCodes_noop (cfg : Config) (link : Str) :
    ∀ (codes : List Str) (st : BotState),
      (∀ c ∈ codes, c ∈ IGNORE_LIST ∨ c ∈ st.known) →
      processCodes cfg link codes st = .ok st := by
  intro codes
  induction codes with
  | nil => intro st _; rfl
  | cons c cs ih =>
    intro st h
    simp only [processCodes, processCode_noop cfg c link st (h c (by simp))]
    exact ih st (fun x hx => h x (by simp [hx]))

theorem processDMsgs_noop (cfg : Config) :
    ∀ (ms : List DMsg) (st : BotState),
      (∀ c ∈ candsOfDMsgs ms, c ∈ IGNORE_LIST ∨ c ∈ st.known) →
      processDMsgs cfg ms st = .ok st := by
  intro ms
  induction ms with
  | nil => intro st _; rfl
  | cons m ms ih =>
    intro st h
    have h1 : processDMsg cfg m st = .ok st :=
      processCodes_noop cfg _ (findCodes m.content) st
        (fun c hc => h c (by simp [candsOfDMsgs, catLists, hc]))
    simp only [processDMsgs, h1]
    exact ih st (fun x hx => h x (by simp [candsOfDMsgs, catLists]; exact Or.inr (by
      simpa [candsOfDMsgs, catLists] using hx)))

theorem check_discord_noop (cfg : Config) (dfetch : Except Unit (List DMsg)) (st : BotState)
    (h : ∀ c ∈ candsOfDiscord cfg.discordCreds dfetch, c ∈ IGNORE_LIST ∨ c ∈ st.known) :
    check_discord cfg dfetch st = st := by
  unfold check_discord
  by_cases hdc : cfg.discordCreds
  · rw [if_pos hdc]
    cases dfetch with
    | error e => rfl
    | ok msgs =>
      show (match processDMsgs cfg msgs st with
        | .ok st2 => st2
        | .error st2 => st2) = st
      rw [processDMsgs_noop cfg msgs st (by
        intro c hc
        apply h c
        simpa [candsOfDiscord, hdc] using hc)]
  · rw [if_neg hdc]

theorem processEntry_noop (cfg : Config) (cutoff : Int) (e : Entry) (st : BotState)
    (h : ∀ c ∈ candsOfEntry cutoff e, c ∈ IGNORE_LIST ∨ c ∈ st.known) :
    processEntry cfg cutoff e st = .ok st := by
  unfold processEntry
  unfold candsOfEntry at h
  cases hp : e.published with
  | none =>
    rw [hp] at h
    exact processCodes_noop cfg _ _ st h
  | some t =>
    rw [hp] at h
    replace h : ∀ c ∈ (if t < cutoff then [] else findCodes (entryText e)),
        c ∈ IGNORE_LIST ∨ c ∈ st.known := h
    show (if t < cutoff then Except.ok st
      else processCodes cfg e.link (findCodes (entryText e)) st) = .ok st
    by_cases ht : t < cutoff
    · rw [if_pos ht]
    · rw [if_neg ht]
      rw [if_neg ht] at h
      exact processCodes_noop cfg _ _ st h

theorem processEntries_noop (cfg : Config) (cutoff : Int) :
    ∀ (es : List Entry) (st : BotState),
      (∀ c ∈ catLists (es.map (candsOfEntry cutoff)), c ∈ IGNORE_LIST ∨ c ∈ st.known) →
      processEntries cfg cutoff es st = .ok st := by
  intro es
  induction es with
  | nil => intro st _; rfl
  | cons e es ih =>
    intro st h
    have h1 : processEntry cfg cutoff e st = .ok st :=
      processEntry_noop cfg cutoff e st (fun c hc => h c (by simp [catLists, hc]))
    simp only [processEntries, h1]
    exact ih st (fun x hx => h x (by simp [catLists]; exact Or.inr (by
      simpa [catLists] using hx)))

theorem processSub_noop (cfg : Config) (cutoff : Int) (feed : Except Unit (List Entry))
    (st : BotState)
    (h : ∀ c ∈ candsOfFeed cutoff feed, c ∈ IGNORE_LIST ∨ c ∈ st.known) :
    processSub cfg cutoff feed st = st := by
  unfold processSub
  cases feed with
  | error e => rfl
  | ok entries =>
    show (match processEntries cfg cutoff entries st with
      | .ok st2 => st2
      | .error st2 => st2) = st
    rw [processEntries_noop cfg cutoff entries st (by
      intro c hc
      apply h c
      simpa [candsOfFeed] using hc)]

theorem runSubs_noop (cfg : Config) (cutoff : Int) :
    ∀ (feeds : List (Except Unit (List Entry))) (st : BotState),
      (∀ c ∈ catLists (feeds.map (candsOfFeed cutoff)), c ∈ IGNORE_LIST ∨ c ∈ st.known) →
      runSubs cfg cutoff feeds st = st := by
  intro feeds
  induction feeds with
  | nil => intro st _; rfl
  | cons f fs ih =>
    intro st h
    have h1 : processSub cfg cutoff f st = st :=
      processSub_noop cfg cutoff f st (fun c hc => h c (by simp [catLists, hc]))
    simp only [runSubs, h1]
    exact ih st (fun x hx => h x (by simp [catLists]; exact Or.inr (by
      simpa [catLists] using hx)))

theorem runMain_noop (cfg : Config) (cutoff : Int) (dfetch : Except Unit (List DMsg))
    (feeds : List (Except Unit (List Entry))) (file0 : List Str)
    (h : ∀ c ∈ candsOfRun cfg.discordCreds cutoff dfetch feeds,
      c ∈ IGNORE_LIST ∨ c ∈ load_known_codes file0) :
    runMain cfg cutoff dfetch feeds file0
      = { known := load_known_codes file0, file := file0, events := ([] : List Event) } := by
  unfold runMain
  rw [check_discord_noop cfg dfetch _ (by
    intro c hc
    exact h c (List.mem_append.mpr (Or.inl hc)))]
  exact runSubs_noop cfg cutoff feeds _ (by
    intro c hc
    exact h c (List.mem_append.mpr (Or.inr hc)))

theorem isCodeChar_not_ws (c : Char) (h : isCodeChar c = true) : c.isWhitespace = false := by
  by_contra hws
  replace hws : c.isWhitespace = true := by simpa using hws
  have hc : c = ' ' ∨ c = '\t' ∨ c = '\x0d' ∨ c = '\n' := by
    simpa [Char.isWhitespace, or_assoc] using hws
  rcases hc with rfl | rfl | rfl | rfl
  · exact absurd h (by decide)
  · exact absurd h (by decide)
  · exact absurd h (by decide)
  · exact absurd h (by decide)

theorem dropWhile_eq_self (p : Char → Bool) (l : List Char) (h : ∀ c ∈ l, p c = false) :
    l.dropWhile p = l := by
  cases l with
  | nil => rfl
  | cons c cs => exact List.dropWhile_cons_of_neg (by simp [h c (by simp)])

theorem pyStrip_all_code (r : Str) (h : r.all isCodeChar = true) : pyStrip r = r := by
  have hws : ∀ c ∈ r, Char.isWhitespace c = false := fun c hc =>
    isCodeChar_not_ws c (List.all_eq_true.mp h c hc)
  unfold pyStrip
  rw [dropWhile_eq_self _ _ hws,
    dropWhile_eq_self _ _ (fun c hc => hws c (List.mem_reverse.mp hc))]
  exact List.reverse_reverse r

theorem runSubs_append (cfg : Config) (cutoff : Int) :
    ∀ (fs gs : List (Except Unit (List Entry))) (st : BotState),
      runSubs cfg cutoff (fs ++ gs) st = runSubs cfg cutoff gs (runSubs cfg cutoff fs st) := by
  intro fs
  induction fs with
  | nil => intro gs st; rfl
  | cons f fs ih =>
    intro gs st
    simp only [List.cons_append, runSubs]
    exact ih gs _

theorem SaveRel_refl (cfg : Config) (st : BotState) : SaveRel cfg st st :=
  ⟨fun _ h => h, fun _ h => Or.inl h, fun _ h => Or.inl h⟩

theorem SaveRel_trans (cfg : Config) {s1 s2 s3 : BotState}
    (h1 : SaveRel cfg s1 s2) (h2 : SaveRel cfg s2 s3) : SaveRel cfg s1 s3 := by
  obtain ⟨e1, p1, f1⟩ := h1
  obtain ⟨e2, p2, f2⟩ := h2
  refine ⟨fun e he => e2 e (e1 e he), ?_, ?_⟩
  · intro c hc
    rcases p2 c hc with h | h
    · exact p1 c h
    · exact Or.inr h
  · intro c hc
    rcases f2 c hc with h | h
    · rcases f1 c h with h' | h'
      · exact Or.inl h'
      · exact Or.inr (e2 _ h')
    · exact Or.inr h

theorem processCode_saveRel (cfg : Config) (code link : Str) (st : BotState) :
    SaveRel cfg st (runState (processCode cfg code link st)) := by
  unfold processCode
  by_cases hig : code ∈ IGNORE_LIST
  · rw [if_pos hig]
    exact SaveRel_refl cfg st
  · rw [if_neg hig]
    by_cases hkn : code ∈ st.known
    · rw [if_pos hkn]
      exact SaveRel_refl cfg st
    · rw [if_neg hkn]
      by_cases hsv : cfg.saveOk code = true
      · rw [if_pos hsv]
        refine ⟨fun e he => List.mem_append.mpr (Or.inl (List.mem_append.mpr (Or.inl he))), ?_, ?_⟩
        · intro c hc
          simp only [runState] at hc
          rcases List.mem_append.mp hc with hc1 | hc1
          · rcases List.mem_append.mp hc1 with hc2 | hc2
            · exact Or.inl hc2
            · rcases List.mem_cons.mp hc2 with he | he
              · exact absurd he (by simp)
              · simp at he
                exact absurd he.symm (by
                  unfold send_telegram_message
                  split
                  · split
                    · simp
                    · simp
                  · simp)
          · simp at hc1
            subst hc1
            exact Or.inr hsv
        · intro c hc
          simp only [runState, save_new_code] at hc
          rcases List.mem_append.mp hc with hc1 | hc1
          · exact Or.inl hc1
          · simp at hc1
            subst hc1
            exact Or.inr (by simp [runState])
      · rw [if_neg hsv]
        refine ⟨fun e he => List.mem_append.mpr (Or.inl he), ?_, ?_⟩
        · intro c hc
          simp only [runState] at hc
          rcases List.mem_append.mp hc with hc1 | hc1
          · exact Or.inl hc1
          · rcases List.mem_cons.mp hc1 with he | he
            · exact absurd he (by simp)
            · simp at he
              exact absurd he.symm (by
                unfold send_telegram_message
                split
                · split
                  · simp
                  · simp
                · simp)
        · intro c hc
          simp only [runState] at hc
          exact Or.inl hc

theorem processCodes_saveRel (cfg : Config) (link : Str) :
    ∀ (codes : List Str) (st : BotState),
      SaveRel cfg st (runState (processCodes cfg link codes st)) := by
  intro codes
  induction codes with
  | nil => intro st; exact SaveRel_refl cfg st
  | cons c cs ih =>
    intro st
    cases h : processCode cfg c link st with
    | ok st' =>
      have h0 := processCode_saveRel cfg c link st
      rw [h] at h0
      simp only [processCodes, h]
      exact SaveRel_trans cfg h0 (ih st')
    | error st' =>
      have h0 := processCode_saveRel cfg c link st
      rw [h] at h0
      simp only [processCodes, h]
      exact h0

theorem processDMsgs_saveRel (cfg : Config) :
    ∀ (ms : List DMsg) (st : BotState), SaveRel cfg st (runState (processDMsgs cfg ms st)) := by
  intro ms
  induction ms with
  | nil => intro st; exact SaveRel_refl cfg st
  | cons m ms ih =>
    intro st
    cases h : processDMsg cfg m st with
    | ok st' =>
      have h0 : SaveRel cfg st (runState (processDMsg cfg m st)) :=
        processCodes_saveRel cfg _ _ st
      rw [h] at h0
      simp only [processDMsgs, h]
      exact SaveRel_trans cfg h0 (ih st')
    | error st' =>
      have h0 : SaveRel cfg st (runState (processDMsg cfg m st)) :=
        processCodes_saveRel cfg _ _ st
      rw [h] at h0
      simp only [processDMsgs, h]
      exact h0

theorem check_discord_saveRel (cfg : Config) (fetch : Except Unit (List DMsg)) (st : BotState) :
    SaveRel cfg st (check_discord cfg fetch st) := by
  unfold check_discord
  by_cases hdc : cfg.discordCreds
  · rw [if_pos hdc]
    cases fetch with
    | error e => exact SaveRel_refl cfg st
    | ok msgs =>
      show SaveRel cfg st (match processDMsgs cfg msgs st with
        | .ok st2 => st2
        | .error st2 => st2)
      cases h : processDMsgs cfg msgs st with
      | ok st' =>
        have h0 := processDMsgs_saveRel cfg msgs st
        rw [h] at h0
        exact h0
      | error st' =>
        have h0 := processDMsgs_saveRel cfg msgs st
        rw [h] at h0
        exact h0
  · rw [if_neg hdc]
    exact SaveRel_refl cfg st

theorem processEntry_saveRel (cfg : Config) (cutoff : Int) (e : Entry) (st : BotState) :
    SaveRel cfg st (runState (processEntry cfg cutoff e st)) := by
  unfold processEntry
  cases e.published with
  | none => exact processCodes_saveRel cfg _ _ st
  | some t =>
    show SaveRel cfg st (runState (if t < cutoff then Except.ok st
      else processCodes cfg e.link (findCodes (entryText e)) st))
    by_cases ht : t < cutoff
    · rw [if_pos ht]
      exact SaveRel_refl cfg st
    · rw [if_neg ht]
      exact processCodes_saveRel cfg _ _ st

theorem processEntries_saveRel (cfg : Config) (cutoff : Int) :
    ∀ (es : List Entry) (st : BotState),
      SaveRel cfg st (runState (processEntries cfg cutoff es st)) := by
  intro es
  induction es with
  | nil => intro st; exact SaveRel_refl cfg st
  | cons e es ih =>
    intro st
    cases h : processEntry cfg cutoff e st with
    | ok st' =>
      have h0 := processEntry_saveRel cfg cutoff e st
      rw [h] at h0
      simp only [processEntries, h]
      exact SaveRel_trans cfg h0 (ih st')
    | error st' =>
      have h0 := processEntry_saveRel cfg cutoff e st
      rw [h] at h0
      simp only [processEntries, h]
      exact h0

theorem processSub_saveRel (cfg : Config) (cutoff : Int) (feed : Except Unit (List Entry))
    (st : BotState) : SaveRel cfg st (processSub cfg cutoff feed st) := by
  unfold processSub
  cases feed with
  | error e => exact SaveRel_refl cfg st
  | ok entries =>
    show SaveRel cfg st (match processEntries cfg cutoff entries st with
      | .ok st2 => st2
      | .error st2 => st2)
    cases h : processEntries cfg cutoff entries st with
    | ok st' =>
      have h0 := processEntries_saveRel cfg cutoff entries st
      rw [h] at h0
      exact h0
    | error st' =>
      have h0 := processEntries_saveRel cfg cutoff entries st
      rw [h] at h0
      exact h0

theorem runSubs_saveRel (cfg : Config) (cutoff : Int) :
    ∀ (feeds : List (Except Unit (List Entry))) (st : BotState),
      SaveRel cfg st (runSubs cfg cutoff feeds st) := by
  intro feeds
  induction feeds with
  | nil => intro st; exact SaveRel_refl cfg st
  | cons f fs ih =>
    intro st
    exact SaveRel_trans cfg (processSub_saveRel cfg cutoff f st) (ih _)

theorem runMain_saveRel (cfg : Config) (cutoff : Int) (dfetch : Except Unit (List DMsg))
    (feeds : List (Except Unit (List Entry))) (file0 : List Str) :
    SaveRel cfg { known := load_known_codes file0, file := file0, events := ([] : List Event) }
      (runMain cfg cutoff dfetch feeds file0) :=
  SaveRel_trans cfg
    (check_discord_saveRel cfg dfetch ⟨load_known_codes file0, file0, []⟩)
    (runSubs_saveRel cfg cutoff feeds _)

theorem runMain_blocks (cfg : Config) (hsave : ∀ c, cfg.saveOk c = true) (cutoff : Int)
    (dfetch : Except Unit (List DMsg)) (feeds : List (Except Unit (List Entry)))
    (file0 : List Str) :
    ∃ qs : List (Str × Str),
      (runMain cfg cutoff dfetch feeds file0).events = catLists (qs.map (blockEvents cfg)) :=
  ((runMain_good cfg hsave cutoff dfetch feeds file0).1).2.2.2.2 [] rfl

theorem runMain_accepted_in_file (cfg : Config) (hsave : ∀ c, cfg.saveOk c = true)
    (cutoff : Int) (dfetch : Except Unit (List DMsg)) (feeds : List (Except Unit (List Entry)))
    (file0 : List Str) (c : Str)
    (hc : Event.accepted c ∈ (runMain cfg cutoff dfetch feeds file0).events) :
    c ∈ (runMain cfg cutoff dfetch feeds file0).file :=
  ((runMain_good cfg hsave cutoff dfetch feeds file0).1).2.2.2.1
    (fun x hx => by simp at hx) c hc

theorem second_run_state (cfg1 cfg2 : Config) (hsave1 : ∀ c, cfg1.saveOk c = true)
    (hdc : cfg2.discordCreds = cfg1.discordCreds) (cutoff : Int)
    (dfetch : Except Unit (List DMsg)) (feeds : List (Except Unit (List Entry)))
    (file0 : List Str) :
    runMain cfg2 cutoff dfetch feeds (runMain cfg1 cutoff dfetch feeds file0).file
      = { known := load_known_codes (runMain cfg1 cutoff dfetch feeds file0).file,
          file := (runMain cfg1 cutoff dfetch feeds file0).file,
          events := ([] : List Event) } := by
  apply runMain_noop
  intro c hc
  rw [hdc] at hc
  obtain ⟨hg, hcov⟩ := runMain_good cfg1 hsave1 cutoff dfetch feeds file0
  rcases hcov c hc with h | h
  · exact Or.inl h
  · rcases hg.2.2.1 c h with h0 | hrest
    · right
      obtain ⟨d, hd, hdc2⟩ := List.mem_map.mp h0
      exact List.mem_map.mpr ⟨d, hg.2.1 d hd, hdc2⟩
    · right
      exact List.mem_map.mpr ⟨c, hrest.1, pyStrip_all_code c hrest.2⟩

theorem send_telegram_message_skipped (cfg : Config) (hcreds : cfg.telegramCreds = false)
    (code link : Str) : send_telegram_message cfg code link = .notifySkipped code := by
  unfold send_telegram_message
  rw [hcreds]
  simp

theorem processEntry_skip (cfg : Config) (cutoff t : Int) (e : Entry) (st : BotState)
    (hp : e.published = some t) (ht : t < cutoff) :
    processEntry cfg cutoff e st = .ok st := by
  unfold processEntry
  rw [hp]
  show (if t < cutoff then Except.ok st
    else processCodes cfg e.link (findCodes (entryText e)) st) = .ok st
  rw [if_pos ht]

/-- C1: as soon as a candidate code is accepted it enters the cumulative
known-code set before the next candidate is evaluated, so over a whole
run - within one message, in later messages, and in later sources - an
already-accepted token is rejected by the acceptance filter and never
reported a second time: the acceptance reports of any run are duplicate
free, and every reported code is in the final known set. -/
theorem claim_C1 (cfg : Config) (cutoff : Int) (dfetch : Except Unit (List DMsg))
    (feeds : List (Except Unit (List Entry))) (file0 : List Str) :
    (acceptedList (runMain cfg cutoff dfetch feeds file0).events).Nodup ∧
    ∀ c ∈ acceptedList (runMain cfg cutoff dfetch feeds file0).events,
      c ∈ (runMain cfg cutoff dfetch feeds file0).known :=
  runMain_runInv cfg cutoff dfetch feeds file0

/-- C2 counterexample: in a concrete run the Notifier is invoked for the
accepted code strictly before the durable append, so the claimed per-code
order accept-persist-notify is false: the trace is [accepted, notified,
persisted] and the notification index precedes the persistence index. -/
theorem claim_C2_cex :
    (runMain ⟨true, false, [], fun _ => true, fun _ => true⟩ 0 (.error ())
        [.ok [⟨("Use ABCD").toList, none, some 5, ("L1").toList⟩]] []).events
      = [Event.accepted (("ABCD").toList),
         Event.notified (("ABCD").toList) (("L1").toList),
         Event.persisted (("ABCD").toList)] ∧
    ((runMain ⟨true, false, [], fun _ => true, fun _ => true⟩ 0 (.error ())
        [.ok [⟨("Use ABCD").toList, none, some 5, ("L1").toList⟩]] []).events).indexOf
        (Event.notified (("ABCD").toList) (("L1").toList))
      < ((runMain ⟨true, false, [], fun _ => true, fun _ => true⟩ 0 (.error ())
        [.ok [⟨("Use ABCD").toList, none, some 5, ("L1").toList⟩]] []).events).indexOf
        (Event.persisted (("ABCD").toList)) := by
  decide

/-- C2 amended: the per-code effect order is accept, then notify, then
persist, one code at a time: when every durable append succeeds, the
event trace of a run is a concatenation of per-code blocks
[accepted, notification outcome, persisted], each block completed before
the next candidate is evaluated; the Notifier is thus invoked for each
code just before - not after - the code is durably added. -/
theorem claim_C2 (cfg : Config) (cutoff : Int) (dfetch : Except Unit (List DMsg))
    (feeds : List (Except Unit (List Entry))) (file0 : List Str)
    (hsave : ∀ c, cfg.saveOk c = true) :
    ∃ qs : List (Str × Str),
      (runMain cfg cutoff dfetch feeds file0).events = catLists (qs.map (blockEvents cfg)) :=
  runMain_blocks cfg hsave cutoff dfetch feeds file0

/-- C2 witness: the amended claim applied to a concrete run. -/
theorem claim_C2_witness :
    ∃ qs : List (Str × Str),
      (runMain ⟨true, false, [], fun _ => true, fun _ => true⟩ 0 (.error ())
          [.ok [⟨("Use ABCD").toList, none, some 5, ("L1").toList⟩]] []).events
        = catLists (qs.map (blockEvents ⟨true, false, [], fun _ => true, fun _ => true⟩)) :=
  claim_C2 ⟨true, false, [], fun _ => true, fun _ => true⟩ 0 (.error ())
    [.ok [⟨("Use ABCD").toList, none, some 5, ("L1").toList⟩]] [] (fun _ => rfl)

/-- C3: for a fixed set of messages, after a first full run whose store
is persisted, a second run over the same messages starting from that
store accepts zero codes: it reports no acceptance and emits no events at
all, in particular no notification. -/
theorem claim_C3 (cfg1 cfg2 : Config) (cutoff : Int) (dfetch : Except Unit (List DMsg))
    (feeds : List (Except Unit (List Entry))) (file0 : List Str)
    (hsave1 : ∀ c, cfg1.saveOk c = true)
    (hdc : cfg2.discordCreds = cfg1.discordCreds) :
    acceptedList (runMain cfg2 cutoff dfetch feeds
        (runMain cfg1 cutoff dfetch feeds file0).file).events = [] ∧
    (runMain cfg2 cutoff dfetch feeds
        (runMain cfg1 cutoff dfetch feeds file0).file).events = [] := by
  rw [second_run_state cfg1 cfg2 hsave1 hdc cutoff dfetch feeds file0]
  exact ⟨rfl, rfl⟩

/-- C3 witness: the claim applied to a concrete pair of identical runs
over one Discord message and one RSS entry. -/
theorem claim_C3_witness :
    acceptedList (runMain ⟨true, true, ("C9").toList, fun _ => true, fun _ => true⟩ 0
        (.ok [⟨("Get WXYZ1 now").toList, ("7").toList⟩])
        [.ok [⟨("Use ABCD").toList, none, some 5, ("L1").toList⟩]]
        (runMain ⟨true, true, ("C9").toList, fun _ => true, fun _ => true⟩ 0
          (.ok [⟨("Get WXYZ1 now").toList, ("7").toList⟩])
          [.ok [⟨("Use ABCD").toList, none, some 5, ("L1").toList⟩]] []).file).events = [] ∧
    (runMain ⟨true, true, ("C9").toList, fun _ => true, fun _ => true⟩ 0
        (.ok [⟨("Get WXYZ1 now").toList, ("7").toList⟩])
        [.ok [⟨("Use ABCD").toList, none, some 5, ("L1").toList⟩]]
        (runMain ⟨true, true, ("C9").toList, fun _ => true, fun _ => true⟩ 0
          (.ok [⟨("Get WXYZ1 now").toList, ("7").toList⟩])
          [.ok [⟨("Use ABCD").toList, none, some 5, ("L1").toList⟩]] []).file).events = [] :=
  claim_C3 ⟨true, true, ("C9").toList, fun _ => true, fun _ => true⟩
    ⟨true, true, ("C9").toList, fun _ => true, fun _ => true⟩ 0
    (.ok [⟨("Get WXYZ1 now").toList, ("7").toList⟩])
    [.ok [⟨("Use ABCD").toList, none, some 5, ("L1").toList⟩]] []
    (fun _ => rfl) rfl

/-- C4 counterexample: in a concrete run whose durable append fails for
the accepted code, the code nevertheless remains in the in-memory known
set, the file does not contain it, and the notification had already been
sent - the state is not "as if it had not been accepted". -/
theorem claim_C4_cex :
    (("ABCD").toList ∈ (runMain ⟨true, false, [], fun _ => true,
        fun c => decide (c ≠ ("ABCD").toList)⟩ 0 (.error ())
        [.ok [⟨("Use ABCD").toList, none, some 5, ("L1").toList⟩]] []).known) ∧
    (("ABCD").toList ∉ (runMain ⟨true, false, [], fun _ => true,
        fun c => decide (c ≠ ("ABCD").toList)⟩ 0 (.error ())
        [.ok [⟨("Use ABCD").toList, none, some 5, ("L1").toList⟩]] []).file) ∧
    (Event.notified (("ABCD").toList) (("L1").toList)
      ∈ (runMain ⟨true, false, [], fun _ => true,
        fun c => decide (c ≠ ("ABCD").toList)⟩ 0 (.error ())
        [.ok [⟨("Use ABCD").toList, none, some 5, ("L1").toList⟩]] []).events) := by
  decide

/-- C4 amended: when the durable append of a code fails, no persistence
record is produced and the durable file never gains the code, so a future
run - which reloads the store from the file - can retry it; but within
the failing run the code does remain in the in-memory known set once
accepted, and the notification attempt has already happened before the
append: the raise leaves the code known, the file unchanged, and the
trace ending with the acceptance and notification events. -/
theorem claim_C4 (cfg : Config) (cutoff : Int) (dfetch : Except Unit (List DMsg))
    (feeds : List (Except Unit (List Entry))) (file0 : List Str) (code : Str)
    (hsf : cfg.saveOk code = false) :
    (Event.persisted code ∉ (runMain cfg cutoff dfetch feeds file0).events) ∧
    (code ∉ file0 → code ∉ (runMain cfg cutoff dfetch feeds file0).file) ∧
    (Event.accepted code ∈ (runMain cfg cutoff dfetch feeds file0).events →
      code ∈ (runMain cfg cutoff dfetch feeds file0).known) ∧
    (∀ (link : Str) (st : BotState), code ∉ IGNORE_LIST → code ∉ st.known →
      processCode cfg code link st = .error
        { known := code :: st.known, file := st.file,
          events := st.events ++ [.accepted code, send_telegram_message cfg code link] }) := by
  have hsr := runMain_saveRel cfg cutoff dfetch feeds file0
  have hpers : Event.persisted code ∉ (runMain cfg cutoff dfetch feeds file0).events := by
    intro hmem
    rcases hsr.2.1 code hmem with h | h
    · simp at h
    · rw [hsf] at h
      exact absurd h (by simp)
  refine ⟨hpers, ?_, ?_, ?_⟩
  · intro h0 hmem
    rcases hsr.2.2 code hmem with h | h
    · exact h0 h
    · exact hpers h
  · intro hacc
    exact (runMain_runInv cfg cutoff dfetch feeds file0).2 code
      ((mem_acceptedList code _).mpr hacc)
  · intro link st hig hkn
    unfold processCode
    rw [if_neg hig, if_neg hkn, if_neg (by simp [hsf])]

/-- C4 witness: the amended claim applied to the failing-append run. -/
theorem claim_C4_witness :
    Event.persisted (("ABCD").toList) ∉ (runMain ⟨true, false, [], fun _ => true,
        fun c => decide (c ≠ ("ABCD").toList)⟩ 0 (.error ())
        [.ok [⟨("Use ABCD").toList, none, some 5, ("L1").toList⟩]] []).events :=
  (claim_C4 ⟨true, false, [], fun _ => true, fun c => decide (c ≠ ("ABCD").toList)⟩ 0
    (.error ()) [.ok [⟨("Use ABCD").toList, none, some 5, ("L1").toList⟩]] []
    (("ABCD").toList) (by decide)).1

/-- C5 counterexample: on the input "1234 xABCD" the maximal [A-Z0-9]
runs of length 4 to 20 are "1234" and "ABCD", yet the extractor yields
neither: the all-digit run fails the letter lookahead of CODE_PATTERN,
and "ABCD" is not word-bounded because the lowercase x before it is a
word character. -/
theorem claim_C5_cex :
    specExtract (("1234 xABCD").toList) = [("1234").toList, ("ABCD").toList] ∧
    findCodes (("1234 xABCD").toList) = [] := by
  decide

/-- C5 amended: for every ASCII input text - where the regex word class
is exactly [A-Za-z0-9_]; Python's \b is Unicode-aware on wider text -
the extractor yields exactly those tokens that occur in the text as
maximal runs of word characters consisting entirely of [A-Z0-9], of
length between 4 and 20 inclusive, and with at least one letter A-Z.
In particular a run of length 3 is never yielded, qualifying runs of
length 4 and of length 20 are, and an over-length run is excluded whole
rather than truncated, every yielded token being itself maximal. -/
theorem claim_C5 (s : List Char) (r : Str) (_hs : ∀ c ∈ s, isAscii c = true) :
    r ∈ findCodes s ↔ IsMaxRun isWordChar s r ∧ r.all isCodeChar = true ∧
      4 ≤ r.length ∧ r.length ≤ 20 ∧ r.any isUpperAZ = true :=
  mem_findCodes_iff s r

/-- C5 witness: the amended characterization applied to a concrete ASCII
text and its one extracted token. -/
theorem claim_C5_witness :
    ("ABCD").toList ∈ findCodes (("see ABCD now").toList) ↔
      IsMaxRun isWordChar (("see ABCD now").toList) (("ABCD").toList) ∧
      ((("ABCD").toList).all isCodeChar = true) ∧
      4 ≤ (("ABCD").toList).length ∧ (("ABCD").toList).length ≤ 20 ∧
      ((("ABCD").toList).any isUpperAZ = true) :=
  claim_C5 (("see ABCD now").toList) (("ABCD").toList) (by decide)

/-- C6: the letter requirement is enabled in CODE_PATTERN: every
extracted candidate contains at least one letter A-Z, so an all-digit run
is never a candidate; concretely "2024 ABCD code" yields exactly
["ABCD"], with "2024" excluded. -/
theorem claim_C6 :
    (∀ (s : List Char) (r : Str), r ∈ findCodes s → r.any isUpperAZ = true) ∧
    findCodes (("2024 ABCD code").toList) = [("ABCD").toList] :=
  ⟨fun s r h => findCodes_any_upper s r h, by decide⟩

/-- C6 witness: the letter-requirement half applied to the concrete
candidate extracted from "2024 ABCD code". -/
theorem claim_C6_witness : (("ABCD").toList).any isUpperAZ = true :=
  claim_C6.1 (("2024 ABCD code").toList) (("ABCD").toList) (by decide)

/-- C7: an entry with a known timestamp older than the lookback cutoff is
skipped entirely - processing it returns the state unchanged, with no
extraction, no candidates and no events - while an entry without a
timestamp is never skipped on this basis: it goes straight to extraction
and the candidate loop. -/
theorem claim_C7 :
    (∀ (cfg : Config) (cutoff t : Int) (e : Entry) (st : BotState),
      e.published = some t → t < cutoff → processEntry cfg cutoff e st = .ok st) ∧
    (∀ (cfg : Config) (cutoff : Int) (e : Entry) (st : BotState),
      e.published = none →
        processEntry cfg cutoff e st = processCodes cfg e.link (findCodes (entryText e)) st) := by
  constructor
  · intro cfg cutoff t e st hp ht
    exact processEntry_skip cfg cutoff t e st hp ht
  · intro cfg cutoff e st hp
    unfold processEntry
    rw [hp]

/-- C7 witness: a four-day-old entry under a three-day cutoff is skipped
unchanged. -/
theorem claim_C7_witness :
    processEntry ⟨true, false, [], fun _ => true, fun _ => true⟩ 10
        ⟨("Use ABCD").toList, none, some 3, ("L1").toList⟩
        { known := [], file := [], events := [] }
      = .ok { known := [], file := [], events := [] } :=
  claim_C7.1 ⟨true, false, [], fun _ => true, fun _ => true⟩ 10 3
    ⟨("Use ABCD").toList, none, some 3, ("L1").toList⟩
    { known := [], file := [], events := [] } rfl (by decide)

/-- C8 counterexample: an entry older than the window is skipped with
continue, not break: in a feed [old, fresh] the fresh entry after the old
one is still processed and its code accepted, where the claim requires
processing of the source to stop at the old entry and accept nothing
after it. -/
theorem claim_C8_cex :
    acceptedList (processSub ⟨true, false, [], fun _ => true, fun _ => true⟩ 10
        (.ok [⟨("old post").toList, none, some 0, ("L0").toList⟩,
              ⟨("Use ABCD").toList, none, some 20, ("L1").toList⟩])
        { known := [], file := [], events := [] }).events
      = [("ABCD").toList] := by
  decide

/-- C8 amended: a message older than the lookback window is skipped
individually and the scan of the source continues: processing a feed that
starts with an over-age entry equals processing the remaining entries, so
every later message in the sequence is still processed; a missing
timestamp likewise neither skips the message nor stops the scan. -/
theorem claim_C8 (cfg : Config) (cutoff t : Int) (e : Entry) (rest : List Entry)
    (st : BotState) (hp : e.published = some t) (ht : t < cutoff) :
    processEntries cfg cutoff (e :: rest) st = processEntries cfg cutoff rest st := by
  simp only [processEntries, processEntry_skip cfg cutoff t e st hp ht]

/-- C8 witness: the amended claim applied to the [old, fresh] feed. -/
theorem claim_C8_witness :
    processEntries ⟨true, false, [], fun _ => true, fun _ => true⟩ 10
        [⟨("old post").toList, none, some 0, ("L0").toList⟩,
         ⟨("Use ABCD").toList, none, some 20, ("L1").toList⟩]
        { known := [], file := [], events := [] }
      = processEntries ⟨true, false, [], fun _ => true, fun _ => true⟩ 10
        [⟨("Use ABCD").toList, none, some 20, ("L1").toList⟩]
        { known := [], file := [], events := [] } :=
  claim_C8 ⟨true, false, [], fun _ => true, fun _ => true⟩ 10 0
    ⟨("old post").toList, none, some 0, ("L0").toList⟩
    [⟨("Use ABCD").toList, none, some 20, ("L1").toList⟩]
    { known := [], file := [], events := [] } rfl (by decide)

/-- C9: a failure while processing one source is caught and the remaining
sources of the run are still processed: a subreddit whose fetch or parse
fails is transparent to the run - scanning the source list with the
failing feed gives exactly the scan of the list without it - and a failed
Discord fetch returns the state unchanged for the subreddit scan that
follows. -/
theorem claim_C9 :
    (∀ (cfg : Config) (cutoff : Int) (pre post : List (Except Unit (List Entry)))
      (err : Unit) (st : BotState),
      runSubs cfg cutoff (pre ++ .error err :: post) st
        = runSubs cfg cutoff (pre ++ post) st) ∧
    (∀ (cfg : Config) (err : Unit) (st : BotState), check_discord cfg (.error err) st = st) := by
  constructor
  · intro cfg cutoff pre post err st
    rw [runSubs_append, runSubs_append]
    rfl
  · intro cfg err st
    unfold check_discord
    by_cases hdc : cfg.discordCreds
    · rw [if_pos hdc]
    · rw [if_neg hdc]

/-- C10: without Telegram credentials a newly accepted code is still
added to the known set and durably appended while the send is silently
skipped: with every append succeeding, such a run delivers no
notification at all, every accepted code gets a skip record and ends in
the final known set and the durable file, and a later run over the same
messages - with any credentials - emits nothing, so the code is never
announced. -/
theorem claim_C10 (cfg : Config) (cutoff : Int) (dfetch : Except Unit (List DMsg))
    (feeds : List (Except Unit (List Entry))) (file0 : List Str)
    (hcreds : cfg.telegramCreds = false) (hsave : ∀ c, cfg.saveOk c = true) :
    (∀ c l, Event.notified c l ∉ (runMain cfg cutoff dfetch feeds file0).events) ∧
    (∀ c, Event.accepted c ∈ (runMain cfg cutoff dfetch feeds file0).events →
      Event.notifySkipped c ∈ (runMain cfg cutoff dfetch feeds file0).events ∧
      c ∈ (runMain cfg cutoff dfetch feeds file0).known ∧
      c ∈ (runMain cfg cutoff dfetch feeds file0).file) ∧
    (∀ cfg2 : Config, cfg2.discordCreds = cfg.discordCreds →
      (runMain cfg2 cutoff dfetch feeds (runMain cfg cutoff dfetch feeds file0).file).events
        = []) := by
  obtain ⟨qs, hqs⟩ := runMain_blocks cfg hsave cutoff dfetch feeds file0
  refine ⟨?_, ?_, ?_⟩
  · intro c l hmem
    rw [hqs, mem_catLists] at hmem
    obtain ⟨bl, hbl, hin⟩ := hmem
    obtain ⟨pr, hpr, rfl⟩ := List.mem_map.mp hbl
    simp [blockEvents, send_telegram_message_skipped cfg hcreds] at hin
  · intro c hacc
    refine ⟨?_, ?_, ?_⟩
    · rw [hqs, mem_catLists] at hacc ⊢
      obtain ⟨bl, hbl, hin⟩ := hacc
      obtain ⟨pr, hpr, rfl⟩ := List.mem_map.mp hbl
      have hc : c = pr.1 := by
        simpa [blockEvents, send_telegram_message_skipped cfg hcreds] using hin
      subst hc
      exact ⟨blockEvents cfg pr, List.mem_map.mpr ⟨pr, hpr, rfl⟩, by
        simp [blockEvents, send_telegram_message_skipped cfg hcreds]⟩
    · exact (runMain_runInv cfg cutoff dfetch feeds file0).2 c
        ((mem_acceptedList c _).mpr hacc)
    · exact runMain_accepted_in_file cfg hsave cutoff dfetch feeds file0 c hacc
  · intro cfg2 hdc2
    rw [second_run_state cfg cfg2 hsave hdc2 cutoff dfetch feeds file0]

/-- C10 witness: the no-delivery half applied to a concrete credential
free run that accepts one code. -/
theorem claim_C10_witness :
    Event.notified (("ABCD").toList) (("L1").toList)
      ∉ (runMain ⟨false, false, [], fun _ => true, fun _ => true⟩ 0
        (.error ()) [.ok [⟨("Use ABCD").toList, none, some 5, ("L1").toList⟩]] []).events :=
  (claim_C10 ⟨false, false, [], fun _ => true, fun _ => true⟩ 0 (.error ())
    [.ok [⟨("Use ABCD").toList, none, some 5, ("L1").toList⟩]] [] rfl (fun _ => rfl)).1
    (("ABCD").toList) (("L1").toList)
